import Mathlib

/-!
# Pomodoro interval engine

A shallow embedding of `interactiveTools/pomo/interval.go` (package `pomodoro`) and of the
in-memory store `interactiveTools/pomo/pomodoro/repository/inMemory.go`.

Conventions of the embedding.

* `time.Duration` is an `int64` count of nanoseconds; it is an `Int` here and the one
  arithmetic update of the timer (`ActualDuration += time.Second`) wraps explicitly.
* `time.Time` is carried around but never inspected by the code below; it is an `Int`.
* `int64` identifiers are `Int`. The only arithmetic on them is `id - 1` used as a slice
  index; the index is in range exactly when `0 ≤ id - 1 < len`, also for the one value
  where `id - 1` would wrap, because a slice is always shorter than `2^63 - 1`.
* A Go call either returns normally without error, returns a non-nil error, or panics
  (index out of range). `Outcome` keeps the three apart.
* The mutex of the store serialises its methods; every method is one atomic step.
-/

namespace Pomodoro

/-! ## interval.go: constants and data model -/

def CategoryPomodoro : String := "Pomodoro"
def CategoryShortBreak : String := "ShortBreak"
def CategoryLongBreak : String := "LongBreak"

def StateNotStarted : Int := 0
def StateRunning : Int := 1
def StatePaused : Int := 2
def StateDone : Int := 3
def StateCancelled : Int := 4

/-- Error values. The first five are the package variables built by `errors.New` in
interval.go, `wrapped base arg` is `fmt.Errorf("%w: %d", base, arg)`, and `declaredElsewhere`
is an error value whose declaration is outside the files at hand. -/
inductive PomoError where
  | ErrNotIntervals
  | ErrIntervalNotRunning
  | ErrIntervalCompleted
  | ErrInvalidState
  | ErrInvalidID
  | wrapped (base : PomoError) (arg : Int)
  | declaredElsewhere (name : String)
  deriving DecidableEq, Repr

/-- The chain walked by `errors.Is`: the error itself or, for a wrapping error, anything its
base is. -/
def PomoError.Is : PomoError → PomoError → Bool
  | .wrapped base arg, target =>
      decide (PomoError.wrapped base arg = target) || PomoError.Is base target
  | e, target => decide (e = target)

/-- How a Go call ends: normal return with a nil error, return of a non-nil error, or a
run-time panic. -/
inductive Outcome (α : Type) where
  | ok (val : α)
  | error (err : PomoError)
  | panic
  deriving DecidableEq, Repr

/-- The number of nanoseconds in `time.Second`. -/
def Second : Int := 1000000000
/-- The number of nanoseconds in `time.Minute`. -/
def Minute : Int := 60 * Second

/-- Two's-complement wrap of an integer into the range of `int64`. -/
def wrapInt64 (x : Int) : Int := (x + 2 ^ 63) % 2 ^ 64 - 2 ^ 63

/-- Membership in the range of `int64`. -/
def InInt64 (x : Int) : Prop := -(2 ^ 63) ≤ x ∧ x < 2 ^ 63

instance (x : Int) : Decidable (InInt64 x) := by unfold InInt64; infer_instance

structure Interval where
  ID : Int
  StartTime : Int
  PlannedDuration : Int
  ActualDuration : Int
  Category : String
  State : Int
  deriving DecidableEq, Repr

/-- The zero value `pomodoro.Interval{}`. -/
def Interval.zero : Interval := ⟨0, 0, 0, 0, "", 0⟩

/-- The configuration of interval.go; `ρ` is the type of the repository reference. -/
structure IntervalConfig (ρ : Type) where
  repo : ρ
  PomodoroDuration : Int
  ShortBreakDuration : Int
  LongBreakDuration : Int

def NewConfig {ρ : Type} (repo : ρ) (pomodoro shortBreak longBreak : Int) : IntervalConfig ρ :=
  let c : IntervalConfig ρ :=
    { repo := repo
      PomodoroDuration := 25 * Minute
      ShortBreakDuration := 5 * Minute
      LongBreakDuration := 15 * Minute }
  let c := if pomodoro > 0 then { c with PomodoroDuration := pomodoro } else c
  let c := if shortBreak > 0 then { c with ShortBreakDuration := shortBreak } else c
  let c := if longBreak > 0 then { c with LongBreakDuration := longBreak } else c
  c

/-! ## repository/inMemory.go -/

/-- The store: the slice `intervals` (the embedded mutex has no state of its own here). -/
structure inMemoryRepo where
  intervals : List Interval
  deriving DecidableEq, Repr

def NewInMemoryRepo : inMemoryRepo := ⟨[]⟩

/-- Slice read `xs[k]` at a signed index: `none` stands for the index-out-of-range panic. -/
def sliceGet (xs : List Interval) (k : Int) : Option Interval :=
  if 0 ≤ k then xs[k.toNat]? else none

/-- Slice write `xs[k] = v` at a signed index: `none` stands for the index-out-of-range
panic. -/
def sliceSet (xs : List Interval) (k : Int) (v : Interval) : Option (List Interval) :=
  if 0 ≤ k ∧ k.toNat < xs.length then some (xs.set k.toNat v) else none

namespace inMemoryRepo

def Create (r : inMemoryRepo) (i : Interval) : Outcome Int × inMemoryRepo :=
  let i := { i with ID := (r.intervals.length : Int) + 1 }
  (.ok i.ID, ⟨r.intervals ++ [i]⟩)

def Update (r : inMemoryRepo) (i : Interval) : Outcome Unit × inMemoryRepo :=
  if i.ID = 0 then (.error (.wrapped .ErrInvalidID i.ID), r)
  else
    match sliceSet r.intervals (i.ID - 1) i with
    | some xs => (.ok (), ⟨xs⟩)
    | none => (.panic, r)

def ByID (r : inMemoryRepo) (id : Int) : Outcome Interval :=
  if id = 0 then .error (.wrapped .ErrInvalidID id)
  else
    match sliceGet r.intervals (id - 1) with
    | some i => .ok i
    | none => .panic

/-- The method `Last`. It returns `pomodoro.ErrNoIntervals`, a variable of the package
`pomo/pomodoro` whose declaration is not among the files at hand; it is the parameter
`ErrNoIntervals`. -/
def Last (ErrNoIntervals : PomoError) (r : inMemoryRepo) : Outcome Interval :=
  if r.intervals.length = 0 then .error ErrNoIntervals
  else
    match sliceGet r.intervals ((r.intervals.length : Int) - 1) with
    | some i => .ok i
    | none => .panic

/-- The loop of `Breaks`: `rest` holds the records still to visit, in the order of the
descending index `k`, and `data` is the slice built so far. -/
def breaksLoop (n : Int) : List Interval → List Interval → List Interval
  | [], data => data
  | x :: rest, data =>
      if x.Category = CategoryPomodoro then breaksLoop n rest data
      else
        let data := data ++ [x]
        if (data.length : Int) = n then data else breaksLoop n rest data

def Breaks (r : inMemoryRepo) (n : Int) : Outcome (List Interval) :=
  .ok (breaksLoop n r.intervals.reverse [])

end inMemoryRepo

/-! ## interval.go: nextCategory -/

/-- The function `nextCategory` over the in-memory store. `ErrNoIntervals` is the error
value `Last` returns on an empty store (see `inMemoryRepo.Last`); the function itself
compares against the variable `ErrNotIntervals` of interval.go. -/
def nextCategory (ErrNoIntervals : PomoError) (r : inMemoryRepo) : Outcome String :=
  match inMemoryRepo.Last ErrNoIntervals r with
  | .panic => .panic
  | .error err => if err = .ErrNotIntervals then .ok CategoryPomodoro else .error err
  | .ok li =>
      if li.Category = CategoryLongBreak ∨ li.Category = CategoryShortBreak then
        .ok CategoryPomodoro
      else
        match inMemoryRepo.Breaks r 3 with
        | .panic => .panic
        | .error err => .error err
        | .ok lastBreaks =>
            if lastBreaks.length < 3 then .ok CategoryShortBreak
            else if lastBreaks.any (fun i => decide (i.Category = CategoryLongBreak)) then
              .ok CategoryShortBreak
            else .ok CategoryLongBreak

/-! ## interval.go: tick -/

/-- What a run of `tick` does that can be observed from outside, in the order in which it
happens: the three callbacks and the calls of `config.repo.Update`. The callback the source
names `end` is `finish` here. -/
inductive Action where
  | start (i : Interval)
  | periodic (i : Interval)
  | finish (i : Interval)
  | update (i : Interval)
  deriving DecidableEq, Repr

/-- What the run waits for in its `select`: one of the three channels delivers, or, while the
run is blocked, another goroutine writes to the store through `Update` (this is how a pause
is requested). Which of them happens, and when, is decided by the clock and by the
scheduler; the run is a function of the sequence of events. Writes of other goroutines are
placed between two iterations of the loop. -/
inductive Event where
  | ticker
  | expire
  | ctxDone
  | outOfBand (w : Interval)
  deriving DecidableEq, Repr

/-- The state a run threads through its loop: the store behind `config.repo` and the
actions performed so far. -/
structure Timer where
  repo : inMemoryRepo
  trace : List Action
  deriving DecidableEq, Repr

/-- One iteration of the `for`/`select` of `tick` for the event `e`. The first component is
`some res` when the iteration leaves the function (returning `res`, or panicking) and `none`
when the loop goes on. -/
def selectCase (id : Int) (t : Timer) : Event → Option (Outcome Unit) × Timer
  | .ticker =>
      match t.repo.ByID id with
      | .panic => (some .panic, t)
      | .error err => (some (.error err), t)
      | .ok i =>
          if i.State = StatePaused then (some (.ok ()), t)
          else
            let i := { i with ActualDuration := wrapInt64 (i.ActualDuration + Second) }
            match t.repo.Update i with
            | (.panic, r) => (some .panic, ⟨r, t.trace ++ [.update i]⟩)
            | (.error err, r) => (some (.error err), ⟨r, t.trace ++ [.update i]⟩)
            | (.ok (), r) => (none, ⟨r, t.trace ++ [.update i, .periodic i]⟩)
  | .expire =>
      match t.repo.ByID id with
      | .panic => (some .panic, t)
      | .error err => (some (.error err), t)
      | .ok i =>
          let i := { i with State := StateDone }
          let upd := t.repo.Update i
          (some upd.1, ⟨upd.2, t.trace ++ [.finish i, .update i]⟩)
  | .ctxDone =>
      match t.repo.ByID id with
      | .panic => (some .panic, t)
      | .error err => (some (.error err), t)
      | .ok i =>
          let i := { i with State := StateCancelled }
          let upd := t.repo.Update i
          (some upd.1, ⟨upd.2, t.trace ++ [.update i]⟩)
  | .outOfBand w => (none, ⟨(t.repo.Update w).2, t.trace⟩)

/-- A return of `tick`: the event whose `select` case executed it (`none` for the return in
front of the loop) and the value returned. -/
structure Return where
  inCase : Option Event
  result : Outcome Unit
  deriving DecidableEq, Repr

/-- The `for` loop of `tick` over a sequence of events. The first component is `none` when
the events are used up and the run is still blocked in its `select`. -/
def loop (id : Int) : List Event → Timer → Option Return × Timer
  | [], t => (none, t)
  | e :: es, t =>
      match selectCase id t e with
      | (some res, t) => (some ⟨some e, res⟩, t)
      | (none, t) => loop id es t

/-- The function `tick`: first read, callback `start`, then the loop. The duration
`i.PlannedDuration - i.ActualDuration` only arms the channel `expire`; when that channel
delivers is part of `events`. -/
def tick (id : Int) (config : IntervalConfig inMemoryRepo) (events : List Event) :
    Option Return × Timer :=
  match config.repo.ByID id with
  | .panic => (some ⟨none, .panic⟩, ⟨config.repo, []⟩)
  | .error err => (some ⟨none, .error err⟩, ⟨config.repo, []⟩)
  | .ok i => loop id events ⟨config.repo, [.start i]⟩

/-! ## Vocabulary of the specification -/

/-- The states of the store that its methods can produce, starting from
`NewInMemoryRepo`. -/
inductive Reachable : inMemoryRepo → Prop where
  | new : Reachable NewInMemoryRepo
  | create (r : inMemoryRepo) (i : Interval) : Reachable r → Reachable (r.Create i).2
  | update (r : inMemoryRepo) (i : Interval) : Reachable r → Reachable (r.Update i).2

/-- A break category: `ShortBreak` or `LongBreak`. -/
def isBreak (i : Interval) : Bool :=
  decide (i.Category = CategoryShortBreak) || decide (i.Category = CategoryLongBreak)

/-- The test the loop of `Breaks` applies to a record: its category is not `Pomodoro`. -/
def notPomodoro (i : Interval) : Bool := !decide (i.Category = CategoryPomodoro)

/-- Every stored record carries one of the three categories of the data model. -/
def ValidCategories (r : inMemoryRepo) : Prop :=
  ∀ i ∈ r.intervals, i.Category = CategoryPomodoro ∨ i.Category = CategoryShortBreak ∨
    i.Category = CategoryLongBreak

instance (r : inMemoryRepo) : Decidable (ValidCategories r) := by
  unfold ValidCategories; infer_instance

/-- The break records of the history, most recently created first. -/
def recentBreaks (r : inMemoryRepo) : List Interval :=
  r.intervals.reverse.filter isBreak

/-- The action is a call of the callback `end` (`Action.finish`). -/
def isFinish : Action → Bool
  | .finish _ => true
  | _ => false

/-- The number of ticker events at the head of a sequence of events: the iterations of the
tick case that come in front of the first other event. -/
def leadingTicks : List Event → Nat
  | .ticker :: es => leadingTicks es + 1
  | _ => 0

/-- A `Pomodoro` record with identifier 1 and start time 0. -/
def pomodoroRecord (planned actual state : Int) : Interval :=
  { ID := 1, StartTime := 0, PlannedDuration := planned, ActualDuration := actual,
    Category := CategoryPomodoro, State := state }

/-- A store holding a single record, created in an empty store: a `Pomodoro` with the given
planned duration and state and with `ActualDuration = 0`. -/
def singleStore (planned : Int) (state : Int) : inMemoryRepo :=
  (NewInMemoryRepo.Create { pomodoroRecord planned 0 state with ID := 0 }).2

/-- The history built by creating one record per category of `cats`, in that order, in an
empty store. -/
def historyOf (cats : List String) : inMemoryRepo :=
  cats.foldl (fun r c => (r.Create { Interval.zero with Category := c }).2) NewInMemoryRepo

/-! ## Helper lemmas: slices and the store -/

theorem sliceGet_natCast (xs : List Interval) (k : Nat) : sliceGet xs (k : Int) = xs[k]? := by
  simp [sliceGet]

theorem sliceGet_length_sub_one (xs : List Interval) (h : xs ≠ []) :
    sliceGet xs ((xs.length : Int) - 1) = xs.getLast? := by
  have hpos : 0 < xs.length := List.length_pos.mpr h
  have hk : ((xs.length : Int) - 1) = ((xs.length - 1 : Nat) : Int) := by omega
  rw [hk, sliceGet_natCast, List.getLast?_eq_getElem?]

theorem Last_of_getLast? (E : PomoError) (r : inMemoryRepo) (li : Interval)
    (h : r.intervals.getLast? = some li) : inMemoryRepo.Last E r = .ok li := by
  have hne : r.intervals ≠ [] := by
    intro h0; rw [h0] at h; simp at h
  have hlen : r.intervals.length ≠ 0 := by
    intro h0; exact hne (List.length_eq_zero.mp h0)
  unfold inMemoryRepo.Last
  rw [if_neg hlen, sliceGet_length_sub_one _ hne, h]

/-! ## Helper lemmas: the loop of Breaks -/

theorem breaksLoop_take (n : Int) (xs : List Interval) :
    ∀ (data : List Interval) (m : Nat), 1 ≤ m → (data.length : Int) + m = n →
      inMemoryRepo.breaksLoop n xs data = data ++ (xs.filter notPomodoro).take m := by
  induction xs with
  | nil => intro data m _ _; simp [inMemoryRepo.breaksLoop]
  | cons x rest ih =>
      intro data m hm hn
      unfold inMemoryRepo.breaksLoop
      by_cases hx : x.Category = CategoryPomodoro
      · rw [if_pos hx]
        have hf : (x :: rest).filter notPomodoro = rest.filter notPomodoro := by
          simp [List.filter, notPomodoro, hx]
        rw [hf]
        exact ih data m hm hn
      · rw [if_neg hx]
        have hf : (x :: rest).filter notPomodoro = x :: rest.filter notPomodoro := by
          simp [List.filter, notPomodoro, hx]
        rw [hf]
        obtain ⟨m', rfl⟩ : ∃ m', m = m' + 1 := ⟨m - 1, by omega⟩
        simp only [List.take_succ_cons]
        by_cases hlen : (((data ++ [x]).length : Nat) : Int) = n
        · rw [if_pos hlen]
          have hm0 : m' = 0 := by
            simp only [List.length_append, List.length_singleton] at hlen
            push_cast at hlen hn
            omega
          subst hm0
          simp
        · rw [if_neg hlen]
          have hm1 : 1 ≤ m' := by
            simp only [List.length_append, List.length_singleton] at hlen
            push_cast at hlen hn
            omega
          have := ih (data ++ [x]) m' hm1 (by
            simp only [List.length_append, List.length_singleton]
            push_cast at hn ⊢
            omega)
          rw [this]
          simp

theorem breaksLoop_all (n : Int) (xs : List Interval) :
    ∀ (data : List Interval), n ≤ (data.length : Int) →
      inMemoryRepo.breaksLoop n xs data = data ++ xs.filter notPomodoro := by
  induction xs with
  | nil => intro data _; simp [inMemoryRepo.breaksLoop]
  | cons x rest ih =>
      intro data hn
      unfold inMemoryRepo.breaksLoop
      by_cases hx : x.Category = CategoryPomodoro
      · rw [if_pos hx]
        have hf : (x :: rest).filter notPomodoro = rest.filter notPomodoro := by
          simp [List.filter, notPomodoro, hx]
        rw [hf]
        exact ih data hn
      · rw [if_neg hx]
        have hf : (x :: rest).filter notPomodoro = x :: rest.filter notPomodoro := by
          simp [List.filter, notPomodoro, hx]
        rw [hf]
        have hlen : ¬ ((((data ++ [x]).length : Nat) : Int) = n) := by
          simp only [List.length_append, List.length_singleton]
          push_cast
          omega
        rw [if_neg hlen]
        have := ih (data ++ [x]) (by
          simp only [List.length_append, List.length_singleton]
          push_cast
          omega)
        rw [this]
        simp

theorem Breaks_of_pos (r : inMemoryRepo) (n : Int) (hn : 1 ≤ n) :
    r.Breaks n = .ok ((r.intervals.reverse.filter notPomodoro).take n.toNat) := by
  unfold inMemoryRepo.Breaks
  rw [breaksLoop_take n r.intervals.reverse [] n.toNat (by omega) (by simp; omega)]
  simp

theorem Breaks_of_nonpos (r : inMemoryRepo) (n : Int) (hn : n ≤ 0) :
    r.Breaks n = .ok (r.intervals.reverse.filter notPomodoro) := by
  unfold inMemoryRepo.Breaks
  rw [breaksLoop_all n r.intervals.reverse [] (by simpa using hn)]
  simp

theorem filter_notPomodoro_eq_recentBreaks (r : inMemoryRepo) (hv : ValidCategories r) :
    r.intervals.reverse.filter notPomodoro = recentBreaks r := by
  unfold recentBreaks
  apply List.filter_congr
  intro i hi
  have hmem : i ∈ r.intervals := List.mem_reverse.mp hi
  rcases hv i hmem with h | h | h <;> simp [notPomodoro, isBreak, h] <;> decide

theorem recentBreaks_length (r : inMemoryRepo) :
    (recentBreaks r).length = r.intervals.countP isBreak := by
  unfold recentBreaks
  rw [← List.countP_eq_length_filter, List.countP_reverse]

/-! ## Helper lemmas: identifiers of a reachable store -/

theorem Reachable_ids (r : inMemoryRepo) (hr : Reachable r) :
    ∀ (k : Nat) (i : Interval), r.intervals[k]? = some i → i.ID = (k : Int) + 1 := by
  induction hr with
  | new => intro k i h; simp [NewInMemoryRepo] at h
  | create r j _ ih =>
      intro k i h
      simp only [inMemoryRepo.Create] at h
      by_cases hk : k < r.intervals.length
      · rw [List.getElem?_append_left hk] at h
        exact ih k i h
      · have hk2 : r.intervals.length ≤ k := Nat.le_of_not_lt hk
        rw [List.getElem?_append_right hk2] at h
        by_cases hz : k - r.intervals.length = 0
        · rw [hz] at h
          simp at h
          subst h
          simp only
          have : k = r.intervals.length := by omega
          rw [this]
        · obtain ⟨m, hm⟩ : ∃ m, k - r.intervals.length = m + 1 :=
            ⟨k - r.intervals.length - 1, by omega⟩
          rw [hm] at h
          simp at h
  | update r j _ ih =>
      intro k i h
      unfold inMemoryRepo.Update at h
      by_cases hz : j.ID = 0
      · rw [if_pos hz] at h; exact ih k i h
      · rw [if_neg hz] at h
        unfold sliceSet at h
        by_cases hc : 0 ≤ j.ID - 1 ∧ (j.ID - 1).toNat < r.intervals.length
        · rw [if_pos hc] at h
          simp only at h
          rw [List.getElem?_set] at h
          by_cases hk : (j.ID - 1).toNat = k
          · rw [if_pos hk] at h
            have hlt : k < r.intervals.length := hk ▸ hc.2
            simp [hlt] at h
            obtain ⟨_, h⟩ := h
            subst h
            have := hc.1
            omega
          · rw [if_neg hk] at h
            exact ih k i h
        · rw [if_neg hc] at h
          exact ih k i h

theorem ByID_ok_getElem? (r : inMemoryRepo) (id : Int) (i : Interval)
    (h : r.ByID id = .ok i) : 1 ≤ id ∧ r.intervals[(id - 1).toNat]? = some i := by
  unfold inMemoryRepo.ByID at h
  by_cases hz : id = 0
  · rw [if_pos hz] at h; cases h
  · rw [if_neg hz] at h
    unfold sliceGet at h
    by_cases hk : 0 ≤ id - 1
    · rw [if_pos hk] at h
      cases hg : r.intervals[(id - 1).toNat]? with
      | none => rw [hg] at h; cases h
      | some j =>
          rw [hg] at h
          simp only [Outcome.ok.injEq] at h
          subst h
          exact ⟨by omega, rfl⟩
    · rw [if_neg hk] at h; cases h

theorem ByID_of_getElem? (r : inMemoryRepo) (id : Int) (i : Interval)
    (h1 : 1 ≤ id) (h : r.intervals[(id - 1).toNat]? = some i) : r.ByID id = .ok i := by
  unfold inMemoryRepo.ByID sliceGet
  rw [if_neg (by omega), if_pos (by omega), h]

theorem ByID_ok_ID (r : inMemoryRepo) (hr : Reachable r) (id : Int) (i : Interval)
    (h : r.ByID id = .ok i) : i.ID = id := by
  obtain ⟨h1, hg⟩ := ByID_ok_getElem? r id i h
  have := Reachable_ids r hr _ i hg
  omega

/-- Writing a record under an identifier that is stored succeeds and replaces exactly the
element at that identifier. -/
theorem Update_of_stored (r : inMemoryRepo) (id : Int) (i j : Interval)
    (h : r.ByID id = .ok i) (hj : j.ID = id) :
    r.Update j = (.ok (), ⟨r.intervals.set (id - 1).toNat j⟩) := by
  obtain ⟨h1, hg⟩ := ByID_ok_getElem? r id i h
  have hlt : (id - 1).toNat < r.intervals.length := by
    rcases List.getElem?_eq_some.mp hg with ⟨hlt, _⟩
    exact hlt
  unfold inMemoryRepo.Update sliceSet
  rw [hj, if_neg (by omega), if_pos ⟨by omega, hlt⟩]

theorem ByID_set_same (r : inMemoryRepo) (id : Int) (i j : Interval)
    (h : r.ByID id = .ok i) :
    inMemoryRepo.ByID ⟨r.intervals.set (id - 1).toNat j⟩ id = .ok j := by
  obtain ⟨h1, hg⟩ := ByID_ok_getElem? r id i h
  have hlt : (id - 1).toNat < r.intervals.length := by
    rcases List.getElem?_eq_some.mp hg with ⟨hlt, _⟩
    exact hlt
  apply ByID_of_getElem? _ id j h1
  rw [List.getElem?_set, if_pos rfl]
  simp only [hlt, if_true]

theorem ByID_set_other (r : inMemoryRepo) (id id2 : Int) (j : Interval)
    (h1 : 1 ≤ id) (hne : id2 ≠ id) :
    inMemoryRepo.ByID ⟨r.intervals.set (id - 1).toNat j⟩ id2 = r.ByID id2 := by
  unfold inMemoryRepo.ByID sliceGet
  by_cases hz : id2 = 0
  · rw [if_pos hz, if_pos hz]
  · rw [if_neg hz, if_neg hz]
    by_cases hk : 0 ≤ id2 - 1
    · rw [if_pos hk, if_pos hk]
      have hne2 : (id - 1).toNat ≠ (id2 - 1).toNat := by omega
      rw [List.getElem?_set_ne hne2]
    · rw [if_neg hk, if_neg hk]

theorem wrapInt64_of_InInt64 (x : Int) (h : InInt64 x) : wrapInt64 x = x := by
  unfold InInt64 at h
  unfold wrapInt64
  have h1 : (0 : Int) ≤ x + 2 ^ 63 := by omega
  have h2 : x + 2 ^ 63 < 2 ^ 64 := by omega
  rw [Int.emod_eq_of_lt h1 h2]
  omega

/-! ## Helper lemmas: one iteration of the timer loop -/

theorem selectCase_ticker_paused (r : inMemoryRepo) (trace : List Action) (id : Int)
    (i : Interval) (hread : r.ByID id = .ok i) (hp : i.State = StatePaused) :
    selectCase id ⟨r, trace⟩ .ticker = (some (.ok ()), ⟨r, trace⟩) := by
  simp only [selectCase, hread]
  rw [if_pos hp]

theorem selectCase_ticker_running (r : inMemoryRepo) (hr : Reachable r) (trace : List Action)
    (id : Int) (i : Interval) (hread : r.ByID id = .ok i) (hp : i.State ≠ StatePaused)
    (hov : InInt64 (i.ActualDuration + Second)) :
    selectCase id ⟨r, trace⟩ .ticker =
      (none,
       ⟨⟨r.intervals.set (id - 1).toNat
            { i with ActualDuration := i.ActualDuration + Second }⟩,
        trace ++ [.update { i with ActualDuration := i.ActualDuration + Second },
                  .periodic { i with ActualDuration := i.ActualDuration + Second }]⟩) := by
  have hid : i.ID = id := ByID_ok_ID r hr id i hread
  have hU := Update_of_stored r id i
    { i with ActualDuration := i.ActualDuration + Second } hread hid
  simp only [selectCase, hread]
  rw [if_neg hp, wrapInt64_of_InInt64 _ hov, hU]

theorem selectCase_expire_stored (r : inMemoryRepo) (hr : Reachable r) (trace : List Action)
    (id : Int) (i : Interval) (hread : r.ByID id = .ok i) :
    selectCase id ⟨r, trace⟩ .expire =
      (some (.ok ()),
       ⟨⟨r.intervals.set (id - 1).toNat { i with State := StateDone }⟩,
        trace ++ [.finish { i with State := StateDone },
                  .update { i with State := StateDone }]⟩) := by
  have hid : i.ID = id := ByID_ok_ID r hr id i hread
  have hU := Update_of_stored r id i { i with State := StateDone } hread hid
  simp only [selectCase, hread, hU]

theorem selectCase_ctxDone_stored (r : inMemoryRepo) (hr : Reachable r) (trace : List Action)
    (id : Int) (i : Interval) (hread : r.ByID id = .ok i) :
    selectCase id ⟨r, trace⟩ .ctxDone =
      (some (.ok ()),
       ⟨⟨r.intervals.set (id - 1).toNat { i with State := StateCancelled }⟩,
        trace ++ [.update { i with State := StateCancelled }]⟩) := by
  have hid : i.ID = id := ByID_ok_ID r hr id i hread
  have hU := Update_of_stored r id i { i with State := StateCancelled } hread hid
  simp only [selectCase, hread, hU]

theorem Reachable_set (r : inMemoryRepo) (hr : Reachable r) (id : Int) (i j : Interval)
    (hread : r.ByID id = .ok i) (hj : j.ID = id) :
    Reachable ⟨r.intervals.set (id - 1).toNat j⟩ := by
  have hU := Update_of_stored r id i j hread hj
  have := Reachable.update r j hr
  rw [hU] at this
  exact this

/-- What one iteration adds to the trace: either actions none of which is a call of `end`,
or, in the case of expiration only, the call of `end` on a record in state `Done` followed
by the call of `Update` on that record, with which the function returns. -/
theorem selectCase_trace (id : Int) (t : Timer) (e : Event) :
    (∃ ext : List Action, (selectCase id t e).2.trace = t.trace ++ ext ∧
        ∀ a ∈ ext, isFinish a = false) ∨
    (e = .expire ∧ ∃ (j : Interval) (res : Outcome Unit), j.State = StateDone ∧
        (selectCase id t e).1 = some res ∧
        (selectCase id t e).2.trace = t.trace ++ [.finish j, .update j]) := by
  cases e with
  | ticker =>
      left
      unfold selectCase
      cases hread : t.repo.ByID id with
      | panic => exact ⟨[], by simp, by simp⟩
      | error err => exact ⟨[], by simp, by simp⟩
      | ok i =>
          simp only
          by_cases hp : i.State = StatePaused
          · rw [if_pos hp]; exact ⟨[], by simp, by simp⟩
          · rw [if_neg hp]
            rcases hU : t.repo.Update
                { i with ActualDuration := wrapInt64 (i.ActualDuration + Second) }
              with ⟨res, r2⟩
            cases res with
            | panic => exact ⟨[.update _], rfl, by simp [isFinish]⟩
            | error err => exact ⟨[.update _], rfl, by simp [isFinish]⟩
            | ok u => exact ⟨[.update _, .periodic _], rfl, by simp [isFinish]⟩
  | expire =>
      unfold selectCase
      cases hread : t.repo.ByID id with
      | panic => left; exact ⟨[], by simp, by simp⟩
      | error err => left; exact ⟨[], by simp, by simp⟩
      | ok i =>
          right
          exact ⟨rfl, { i with State := StateDone }, _, rfl, rfl, rfl⟩
  | ctxDone =>
      left
      unfold selectCase
      cases hread : t.repo.ByID id with
      | panic => exact ⟨[], by simp, by simp⟩
      | error err => exact ⟨[], by simp, by simp⟩
      | ok i => exact ⟨[.update _], rfl, by simp [isFinish]⟩
  | outOfBand w =>
      left
      exact ⟨[], by simp [selectCase], by simp⟩

/-- An iteration that leaves the function in a case other than expiration, or that lets the
loop go on, adds no call of `end`. -/
theorem selectCase_trace_no_finish (id : Int) (t : Timer) (e : Event)
    (h : e ≠ .expire ∨ (selectCase id t e).1 = none) :
    ∃ ext : List Action, (selectCase id t e).2.trace = t.trace ++ ext ∧
      ∀ a ∈ ext, isFinish a = false := by
  rcases selectCase_trace id t e with h1 | ⟨he, j, res, _, hres, _⟩
  · exact h1
  · rcases h with h | h
    · exact absurd he h
    · rw [h] at hres; cases hres

/-! ## Helper lemmas: the timer loop -/

/-- The calls of `end` in the trace of a loop that starts without any: either there is still
none, or the loop returned in the case of expiration and its trace ends with the call of
`end` on a record in state `Done` followed by the call of `Update` on that record. -/
theorem loop_trace (id : Int) (events : List Event) :
    ∀ t : Timer, (∀ a ∈ t.trace, isFinish a = false) →
      (∀ a ∈ (loop id events t).2.trace, isFinish a = false) ∨
      (∃ (pre : List Action) (j : Interval) (res : Outcome Unit),
        (∀ a ∈ pre, isFinish a = false) ∧ j.State = StateDone ∧
        (loop id events t).1 = some ⟨some .expire, res⟩ ∧
        (loop id events t).2.trace = pre ++ [.finish j, .update j]) := by
  induction events with
  | nil => intro t ht; left; simpa [loop] using ht
  | cons e es ih =>
      intro t ht
      have hcases := selectCase_trace id t e
      have hnf := selectCase_trace_no_finish id t e
      unfold loop
      rcases hsel : selectCase id t e with ⟨res, t2⟩
      rw [hsel] at hcases hnf
      cases res with
      | some out =>
          simp only
          rcases hcases with ⟨ext, hext, hno⟩ | ⟨he, j, res2, hj, hres, htr⟩
          · left
            intro a ha
            simp only at hext
            rw [hext] at ha
            rcases List.mem_append.mp ha with h | h
            · exact ht a h
            · exact hno a h
          · right
            simp only at hres htr
            simp only [Option.some.injEq] at hres
            subst hres
            subst he
            exact ⟨t.trace, j, out, ht, hj, rfl, htr⟩
      | none =>
          simp only
          obtain ⟨ext, hext, hno⟩ := hnf (Or.inr rfl)
          apply ih t2
          intro a ha
          simp only at hext
          rw [hext] at ha
          rcases List.mem_append.mp ha with h | h
          · exact ht a h
          · exact hno a h

theorem tick_trace (id : Int) (config : IntervalConfig inMemoryRepo) (events : List Event) :
    (∀ a ∈ (tick id config events).2.trace, isFinish a = false) ∨
    (∃ (pre : List Action) (j : Interval) (res : Outcome Unit),
      (∀ a ∈ pre, isFinish a = false) ∧ j.State = StateDone ∧
      (tick id config events).1 = some ⟨some .expire, res⟩ ∧
      (tick id config events).2.trace = pre ++ [.finish j, .update j]) := by
  unfold tick
  cases hread : config.repo.ByID id with
  | panic => left; simp
  | error err => left; simp
  | ok i =>
      simp only
      apply loop_trace
      intro a ha
      simp only [List.mem_singleton] at ha
      subst ha
      rfl

/-- The persisted `ActualDuration` after a loop without out-of-band writes on a stored record
that is not paused: one second more for every ticker event in front of the first other
event. `PlannedDuration` is not touched. -/
theorem loop_actualDuration (id : Int) (events : List Event)
    (hev : ∀ e ∈ events, e = .ticker ∨ e = .expire ∨ e = .ctxDone) :
    ∀ (r : inMemoryRepo) (trace : List Action) (i : Interval), Reachable r →
      r.ByID id = .ok i → i.State ≠ StatePaused → -(2 ^ 63) ≤ i.ActualDuration →
      i.ActualDuration + (leadingTicks events : Int) * Second < 2 ^ 63 →
      ∃ rec : Interval, (loop id events ⟨r, trace⟩).2.repo.ByID id = .ok rec ∧
        rec.ActualDuration = i.ActualDuration + (leadingTicks events : Int) * Second ∧
        rec.PlannedDuration = i.PlannedDuration := by
  induction events with
  | nil =>
      intro r trace i _ hread _ _ _
      exact ⟨i, by simpa [loop] using hread, by simp [leadingTicks], rfl⟩
  | cons e es ih =>
      intro r trace i hr hread hp hlo hhi
      have hes : ∀ e ∈ es, e = .ticker ∨ e = .expire ∨ e = .ctxDone :=
        fun x hx => hev x (List.mem_cons_of_mem _ hx)
      rcases hev e (List.mem_cons_self _ _) with he | he | he
      · subst he
        have hS : (0 : Int) < Second := by decide
        have hlt : ((leadingTicks (Event.ticker :: es) : Nat) : Int)
            = (leadingTicks es : Int) + 1 := by
          simp [leadingTicks]
        rw [hlt] at hhi ⊢
        have hnn : (0 : Int) ≤ (leadingTicks es : Int) * Second :=
          Int.mul_nonneg (Int.ofNat_nonneg _) (Int.le_of_lt hS)
        have hexp : ((leadingTicks es : Int) + 1) * Second
            = (leadingTicks es : Int) * Second + Second := by ring
        rw [hexp] at hhi ⊢
        have hov : InInt64 (i.ActualDuration + Second) := ⟨by omega, by omega⟩
        have hstep := selectCase_ticker_running r hr trace id i hread hp hov
        unfold loop
        rw [hstep]
        simp only
        have hr2 := Reachable_set r hr id i
          { i with ActualDuration := i.ActualDuration + Second } hread
          (ByID_ok_ID r hr id i hread)
        have hread2 := ByID_set_same r id i
          { i with ActualDuration := i.ActualDuration + Second } hread
        obtain ⟨rec, h1, h2, h3⟩ := ih hes _ (trace ++ [.update _, .periodic _])
          { i with ActualDuration := i.ActualDuration + Second } hr2 hread2 hp
          (by simp only; omega) (by simp only; omega)
        refine ⟨rec, h1, ?_, h3⟩
        rw [h2]
        simp only
        omega
      · subst he
        have hstep := selectCase_expire_stored r hr trace id i hread
        unfold loop
        rw [hstep]
        simp only
        refine ⟨{ i with State := StateDone },
          ByID_set_same r id i { i with State := StateDone } hread, ?_, rfl⟩
        simp [leadingTicks]
      · subst he
        have hstep := selectCase_ctxDone_stored r hr trace id i hread
        unfold loop
        rw [hstep]
        simp only
        refine ⟨{ i with State := StateCancelled },
          ByID_set_same r id i { i with State := StateCancelled } hread, ?_, rfl⟩
        simp [leadingTicks]

theorem ByID_after_Create (r : inMemoryRepo) (i : Interval) :
    (r.Create i).2.ByID ((r.intervals.length : Int) + 1)
      = .ok { i with ID := (r.intervals.length : Int) + 1 } := by
  have hne : ((r.intervals.length : Int) + 1) ≠ 0 := by omega
  simp only [inMemoryRepo.Create, inMemoryRepo.ByID]
  rw [if_neg hne]
  have hk : ((r.intervals.length : Int) + 1 - 1) = ((r.intervals.length : Nat) : Int) := by
    omega
  rw [hk, sliceGet_natCast]
  simp

/-! ## The category scheduler -/

/-- After a break comes work: whenever the most recently created interval is a `ShortBreak`
or a `LongBreak`, `nextCategory` returns `Pomodoro` with no error, whatever error value
`Last` uses for the empty store. -/
theorem nextCategory_after_break (ErrNoIntervals : PomoError) (r : inMemoryRepo)
    (li : Interval) (hlast : r.intervals.getLast? = some li)
    (hcat : li.Category = CategoryShortBreak ∨ li.Category = CategoryLongBreak) :
    nextCategory ErrNoIntervals r = .ok CategoryPomodoro := by
  have hL := Last_of_getLast? ErrNoIntervals r li hlast
  have hc : li.Category = CategoryLongBreak ∨ li.Category = CategoryShortBreak := hcat.symm
  simp only [nextCategory, hL]
  rw [if_pos hc]

/-- On a store without records `Last` returns its error value, and `nextCategory` turns it
into `Pomodoro` only if it is the variable `ErrNotIntervals` it compares against; any other
error value is returned as it is. -/
theorem nextCategory_of_empty (ErrNoIntervals : PomoError) (r : inMemoryRepo)
    (h0 : r.intervals = []) :
    inMemoryRepo.Last ErrNoIntervals r = .error ErrNoIntervals ∧
    nextCategory ErrNoIntervals r
      = (if ErrNoIntervals = PomoError.ErrNotIntervals then .ok CategoryPomodoro
         else .error ErrNoIntervals) := by
  have hL : inMemoryRepo.Last ErrNoIntervals r = .error ErrNoIntervals := by
    simp [inMemoryRepo.Last, h0]
  exact ⟨hL, by simp only [nextCategory, hL]⟩

/-- C1, the code on the empty store. `Last` returns the error value `ErrNoIntervals` of the
store, and `nextCategory` answers `Pomodoro` only when that value is the variable
`ErrNotIntervals` of interval.go it compares against. For the value the store really
returns, a variable declared in another package and so a different error value, it returns
that error instead of `Pomodoro`. The other half of the claim holds with that value too:
after a `ShortBreak` or a `LongBreak` the answer is `Pomodoro`. -/
theorem nextCategory_empty_store (ErrNoIntervals : PomoError) :
    inMemoryRepo.Last ErrNoIntervals NewInMemoryRepo = .error ErrNoIntervals ∧
    nextCategory ErrNoIntervals NewInMemoryRepo
      = (if ErrNoIntervals = PomoError.ErrNotIntervals then .ok CategoryPomodoro
         else .error ErrNoIntervals) ∧
    nextCategory (.declaredElsewhere "ErrNoIntervals") NewInMemoryRepo
      = .error (.declaredElsewhere "ErrNoIntervals") ∧
    nextCategory (.declaredElsewhere "ErrNoIntervals")
        (historyOf [CategoryPomodoro, CategoryShortBreak]) = .ok CategoryPomodoro ∧
    nextCategory (.declaredElsewhere "ErrNoIntervals")
        (historyOf [CategoryPomodoro, CategoryLongBreak]) = .ok CategoryPomodoro := by
  have h := nextCategory_of_empty ErrNoIntervals NewInMemoryRepo rfl
  exact ⟨h.1, h.2, by decide, by decide, by decide⟩

/-- C2. In a history of records of the three categories whose most recently created
interval is a `Pomodoro`, `nextCategory` returns `LongBreak` exactly when the history holds
at least 3 break intervals and none of the 3 most recent of them is a `LongBreak`; in every
other such history it returns `ShortBreak`. -/
theorem nextCategory_after_pomodoro (ErrNoIntervals : PomoError) (r : inMemoryRepo)
    (li : Interval) (hlast : r.intervals.getLast? = some li)
    (hp : li.Category = CategoryPomodoro) (hv : ValidCategories r) :
    (nextCategory ErrNoIntervals r = .ok CategoryLongBreak ↔
        (3 ≤ r.intervals.countP isBreak ∧
          ∀ b ∈ (recentBreaks r).take 3, b.Category ≠ CategoryLongBreak)) ∧
    (¬ (3 ≤ r.intervals.countP isBreak ∧
          ∀ b ∈ (recentBreaks r).take 3, b.Category ≠ CategoryLongBreak) →
        nextCategory ErrNoIntervals r = .ok CategoryShortBreak) := by
  have hL := Last_of_getLast? ErrNoIntervals r li hlast
  have hc : ¬ (li.Category = CategoryLongBreak ∨ li.Category = CategoryShortBreak) := by
    rw [hp]; decide
  have hB : r.Breaks 3 = .ok ((recentBreaks r).take 3) := by
    rw [Breaks_of_pos r 3 (by decide), filter_notPomodoro_eq_recentBreaks r hv]; rfl
  have hnc : nextCategory ErrNoIntervals r =
      if ((recentBreaks r).take 3).length < 3 then .ok CategoryShortBreak
      else if ((recentBreaks r).take 3).any (fun i => decide (i.Category = CategoryLongBreak))
        then .ok CategoryShortBreak
      else .ok CategoryLongBreak := by
    simp only [nextCategory, hL, hB]
    rw [if_neg hc]
  have hlen : ((recentBreaks r).take 3).length < 3 ↔ ¬ 3 ≤ r.intervals.countP isBreak := by
    rw [List.length_take, recentBreaks_length]; omega
  have hany : ((recentBreaks r).take 3).any (fun i => decide (i.Category = CategoryLongBreak))
      = true ↔ ¬ ∀ b ∈ (recentBreaks r).take 3, b.Category ≠ CategoryLongBreak := by
    simp [List.any_eq_true]
  have hne : (Outcome.ok CategoryShortBreak : Outcome String) ≠ .ok CategoryLongBreak := by
    decide
  rw [hnc]
  by_cases h3 : 3 ≤ r.intervals.countP isBreak
  · have hl : ¬ ((recentBreaks r).take 3).length < 3 := fun h => (hlen.mp h) h3
    rw [if_neg hl]
    by_cases hno : ∀ b ∈ (recentBreaks r).take 3, b.Category ≠ CategoryLongBreak
    · have ha : ¬ (((recentBreaks r).take 3).any
          (fun i => decide (i.Category = CategoryLongBreak)) = true) :=
        fun h => (hany.mp h) hno
      rw [if_neg ha]
      exact ⟨⟨fun _ => ⟨h3, hno⟩, fun _ => rfl⟩, fun h => absurd ⟨h3, hno⟩ h⟩
    · have ha : ((recentBreaks r).take 3).any
          (fun i => decide (i.Category = CategoryLongBreak)) = true := hany.mpr hno
      rw [if_pos ha]
      exact ⟨⟨fun h => absurd h hne, fun h => absurd h.2 hno⟩, fun _ => rfl⟩
  · have hl : ((recentBreaks r).take 3).length < 3 := hlen.mpr h3
    rw [if_pos hl]
    exact ⟨⟨fun h => absurd h hne, fun h => absurd h.1 h3⟩, fun _ => rfl⟩

theorem nextCategory_after_pomodoro_witness :
    nextCategory PomoError.ErrNotIntervals
        (historyOf [CategoryShortBreak, CategoryShortBreak, CategoryShortBreak,
          CategoryPomodoro]) = .ok CategoryLongBreak ∧
    nextCategory PomoError.ErrNotIntervals
        (historyOf [CategoryLongBreak, CategoryShortBreak, CategoryShortBreak,
          CategoryPomodoro]) = .ok CategoryShortBreak :=
  ⟨(nextCategory_after_pomodoro PomoError.ErrNotIntervals
      (historyOf [CategoryShortBreak, CategoryShortBreak, CategoryShortBreak,
        CategoryPomodoro])
      { Interval.zero with ID := 4, Category := CategoryPomodoro }
      (by decide) rfl (by decide)).1.mpr (by decide),
   (nextCategory_after_pomodoro PomoError.ErrNotIntervals
      (historyOf [CategoryLongBreak, CategoryShortBreak, CategoryShortBreak,
        CategoryPomodoro])
      { Interval.zero with ID := 4, Category := CategoryPomodoro }
      (by decide) rfl (by decide)).2 (by decide)⟩

/-- C3, as stated, fails: after the six intervals Pomodoro, ShortBreak, Pomodoro, ShortBreak,
Pomodoro, ShortBreak the last interval is a break, and `nextCategory` returns `Pomodoro`,
not `LongBreak`. -/
theorem nextCategory_six_intervals_not_longBreak :
    nextCategory PomoError.ErrNotIntervals
      (historyOf [CategoryPomodoro, CategoryShortBreak, CategoryPomodoro, CategoryShortBreak,
        CategoryPomodoro, CategoryShortBreak]) ≠ .ok CategoryLongBreak := by
  decide

/-- C3, amended. After the six intervals Pomodoro, ShortBreak, Pomodoro, ShortBreak,
Pomodoro, ShortBreak created in an empty store `nextCategory` returns `Pomodoro`; once a
seventh interval, of category `Pomodoro`, is created it returns `LongBreak`. This holds
whatever error value `Last` uses for the empty store. -/
theorem nextCategory_scenario (ErrNoIntervals : PomoError) :
    nextCategory ErrNoIntervals
      (historyOf [CategoryPomodoro, CategoryShortBreak, CategoryPomodoro, CategoryShortBreak,
        CategoryPomodoro, CategoryShortBreak]) = .ok CategoryPomodoro ∧
    nextCategory ErrNoIntervals
      (historyOf [CategoryPomodoro, CategoryShortBreak, CategoryPomodoro, CategoryShortBreak,
        CategoryPomodoro, CategoryShortBreak, CategoryPomodoro]) = .ok CategoryLongBreak := by
  constructor <;> rfl

/-! ## The in-memory store -/

/-- C4. `Create` always returns an identifier, and `ByID` on that identifier right afterwards
succeeds with the record given to `Create`, its `ID` replaced by the identifier: `StartTime`,
`PlannedDuration`, `ActualDuration`, `Category` and `State` are those of the input. -/
theorem Create_then_ByID (r : inMemoryRepo) (i : Interval) :
    ∃ id : Int, (r.Create i).1 = .ok id ∧
      ∃ rec : Interval, (r.Create i).2.ByID id = .ok rec ∧
        rec.ID = id ∧ rec.StartTime = i.StartTime ∧
        rec.PlannedDuration = i.PlannedDuration ∧ rec.ActualDuration = i.ActualDuration ∧
        rec.Category = i.Category ∧ rec.State = i.State ∧ rec = { i with ID := id } := by
  exact ⟨(r.intervals.length : Int) + 1, rfl,
    { i with ID := (r.intervals.length : Int) + 1 }, ByID_after_Create r i,
    rfl, rfl, rfl, rfl, rfl, rfl, rfl⟩

/-- C5, the code at identifiers that no stored record has. With an empty store `ByID(1)` and
`Update` of a record with `ID = 1` panic (index out of range) instead of returning an error
that wraps `ErrInvalidID`; so do `ByID(-1)`, `ByID(2)` and `Update` of a record with `ID = 5`
on a store of one record. Only the identifier zero yields the error, and then the store is
unchanged. -/
theorem ByID_Update_absent_id :
    NewInMemoryRepo.ByID 1 = .panic ∧
    (NewInMemoryRepo.Update { Interval.zero with ID := 1 }).1 = .panic ∧
    (historyOf [CategoryPomodoro]).ByID (-1) = .panic ∧
    (historyOf [CategoryPomodoro]).ByID 2 = .panic ∧
    ((historyOf [CategoryPomodoro]).Update { Interval.zero with ID := 5 }).1 = .panic ∧
    (historyOf [CategoryPomodoro]).ByID 0 = .error (.wrapped .ErrInvalidID 0) ∧
    (historyOf [CategoryPomodoro]).Update { Interval.zero with ID := 0 }
      = (.error (.wrapped .ErrInvalidID 0), historyOf [CategoryPomodoro]) ∧
    PomoError.Is (.wrapped .ErrInvalidID 0) .ErrInvalidID = true := by
  decide

/-- C6, as stated, fails for the integers below 1: on a store holding one `ShortBreak`
record, `Breaks(-1)` returns that record, a list of more than `-1` records; the loop never
meets its bound, and `Breaks(0)` returns the record as well. -/
theorem Breaks_nonpositive_returns_all :
    (historyOf [CategoryShortBreak]).Breaks (-1)
      = .ok [{ Interval.zero with ID := 1, Category := CategoryShortBreak }] ∧
    ¬ (([{ Interval.zero with ID := 1, Category := CategoryShortBreak }].length : Int) ≤ -1) ∧
    (historyOf [CategoryShortBreak]).Breaks 0
      = .ok [{ Interval.zero with ID := 1, Category := CategoryShortBreak }] := by
  decide

/-- C6, amended. For every store and every integer `n`, `Breaks(n)` returns a list without
error; the list holds no `Pomodoro` record and is empty when the store is empty. When
`n ≥ 1` and the records carry the three categories of the data model, the list has at most
`n` records and is exactly the first `n` (or all, if fewer) of the `ShortBreak` and
`LongBreak` records taken most recently created first. -/
theorem Breaks_recent_breaks (r : inMemoryRepo) (n : Int) :
    ∃ data : List Interval, r.Breaks n = .ok data ∧
      (∀ i ∈ data, i.Category ≠ CategoryPomodoro) ∧
      (r.intervals = [] → data = []) ∧
      (1 ≤ n → ValidCategories r →
        (data.length : Int) ≤ n ∧ data = (recentBreaks r).take n.toNat ∧
        ∀ i ∈ data, isBreak i = true) := by
  have hnp : ∀ (l : List Interval) (k : Nat), ∀ i ∈ (l.filter notPomodoro).take k,
      i.Category ≠ CategoryPomodoro := by
    intro l k i hi
    have h1 : i ∈ l.filter notPomodoro := List.mem_of_mem_take hi
    have h2 := (List.mem_filter.mp h1).2
    simpa [notPomodoro] using h2
  by_cases hn : 1 ≤ n
  · refine ⟨(r.intervals.reverse.filter notPomodoro).take n.toNat, Breaks_of_pos r n hn,
      hnp _ _, ?_, ?_⟩
    · intro h0; simp [h0]
    · intro _ hv
      rw [filter_notPomodoro_eq_recentBreaks r hv]
      refine ⟨?_, rfl, ?_⟩
      · have := List.length_take_le n.toNat (recentBreaks r)
        omega
      · intro i hi
        have h1 : i ∈ recentBreaks r := List.mem_of_mem_take hi
        exact (List.mem_filter.mp h1).2
  · refine ⟨r.intervals.reverse.filter notPomodoro, Breaks_of_nonpos r n (by omega),
      ?_, ?_, ?_⟩
    · intro i hi
      have h2 := (List.mem_filter.mp hi).2
      simpa [notPomodoro] using h2
    · intro h0; simp [h0]
    · intro h; exact absurd h hn

theorem Breaks_recent_breaks_witness :
    (historyOf [CategoryShortBreak, CategoryPomodoro, CategoryLongBreak, CategoryShortBreak,
        CategoryPomodoro]).Breaks 2
      = .ok [{ Interval.zero with ID := 4, Category := CategoryShortBreak },
             { Interval.zero with ID := 3, Category := CategoryLongBreak }] := by
  obtain ⟨data, hB, _, _, h⟩ := Breaks_recent_breaks
    (historyOf [CategoryShortBreak, CategoryPomodoro, CategoryLongBreak, CategoryShortBreak,
      CategoryPomodoro]) 2
  have hd := (h (by decide) (by decide)).2.1
  rw [hB, hd]
  decide

/-! ## The configuration -/

/-- C7. `NewConfig` keeps each supplied duration that is strictly positive and replaces each
one that is zero or negative by its default (25, 5 and 15 minutes, in nanoseconds); each
field depends on its own argument only, and the three resulting durations are strictly
positive. The repository reference is stored as given. -/
theorem NewConfig_durations {ρ : Type} (repo : ρ) (pomodoro shortBreak longBreak : Int) :
    (NewConfig repo pomodoro shortBreak longBreak).PomodoroDuration
        = (if 0 < pomodoro then pomodoro else 1500000000000) ∧
    (NewConfig repo pomodoro shortBreak longBreak).ShortBreakDuration
        = (if 0 < shortBreak then shortBreak else 300000000000) ∧
    (NewConfig repo pomodoro shortBreak longBreak).LongBreakDuration
        = (if 0 < longBreak then longBreak else 900000000000) ∧
    0 < (NewConfig repo pomodoro shortBreak longBreak).PomodoroDuration ∧
    0 < (NewConfig repo pomodoro shortBreak longBreak).ShortBreakDuration ∧
    0 < (NewConfig repo pomodoro shortBreak longBreak).LongBreakDuration ∧
    (NewConfig repo pomodoro shortBreak longBreak).repo = repo := by
  unfold NewConfig
  by_cases hp : 0 < pomodoro <;> by_cases hs : 0 < shortBreak <;>
    by_cases hl : 0 < longBreak <;>
    simp [hp, hs, hl, Minute, Second]

/-! ## The timer -/

/-- C8. The tick event on a stored identifier, in a reachable store. If the record read is
`Paused`, the run returns nil in that iteration and neither the store nor the trace changes
(no `Update`, no callback). Otherwise, provided the incremented duration fits `int64`, the
loop goes on, the store holds under that identifier the record read with `ActualDuration`
one second larger and nothing else changed, the other identifiers read as before, and the
trace grows by the `Update` of that record followed by one `periodic` call on it. -/
theorem ticker_event (r : inMemoryRepo) (hr : Reachable r) (trace : List Action) (id : Int)
    (i : Interval) (hread : r.ByID id = .ok i) (rest : List Event) :
    (i.State = StatePaused →
      loop id (.ticker :: rest) ⟨r, trace⟩
        = (some ⟨some .ticker, .ok ()⟩, ⟨r, trace⟩)) ∧
    (i.State ≠ StatePaused → InInt64 (i.ActualDuration + Second) →
      ∃ (r2 : inMemoryRepo) (rec : Interval),
        selectCase id ⟨r, trace⟩ .ticker
          = (none, ⟨r2, trace ++ [.update rec, .periodic rec]⟩) ∧
        loop id (.ticker :: rest) ⟨r, trace⟩
          = loop id rest ⟨r2, trace ++ [.update rec, .periodic rec]⟩ ∧
        r2.ByID id = .ok rec ∧
        rec.ActualDuration = i.ActualDuration + Second ∧
        rec.ID = i.ID ∧ rec.StartTime = i.StartTime ∧
        rec.PlannedDuration = i.PlannedDuration ∧ rec.Category = i.Category ∧
        rec.State = i.State ∧
        (∀ id2 : Int, id2 ≠ id → r2.ByID id2 = r.ByID id2)) := by
  constructor
  · intro hp
    have hstep := selectCase_ticker_paused r trace id i hread hp
    unfold loop
    rw [hstep]
  · intro hp hov
    have hstep := selectCase_ticker_running r hr trace id i hread hp hov
    refine ⟨⟨r.intervals.set (id - 1).toNat
        { i with ActualDuration := i.ActualDuration + Second }⟩,
      { i with ActualDuration := i.ActualDuration + Second }, hstep, ?_,
      ByID_set_same r id i _ hread, rfl, rfl, rfl, rfl, rfl, rfl, ?_⟩
    · conv_lhs => unfold loop
      rw [hstep]
    · intro id2 hne
      exact ByID_set_other r id id2 _ (ByID_ok_getElem? r id i hread).1 hne

theorem ticker_event_witness :
    loop 1 [.ticker, .expire] ⟨singleStore Second StatePaused, []⟩
      = (some ⟨some .ticker, .ok ()⟩, ⟨singleStore Second StatePaused, []⟩) ∧
    ∃ (r2 : inMemoryRepo) (rec : Interval),
      r2.ByID 1 = .ok rec ∧ rec.ActualDuration = 0 + Second ∧
      rec.State = StateRunning :=
  ⟨(ticker_event (singleStore Second StatePaused)
      (Reachable.create _ _ Reachable.new) [] 1
      (pomodoroRecord Second 0 StatePaused)
      (by decide) [.expire]).1 rfl,
   by
    obtain ⟨r2, rec, _, _, h1, h2, _, _, _, _, h3, _⟩ :=
      (ticker_event (singleStore Second StateRunning)
        (Reachable.create _ _ Reachable.new) [] 1
        (pomodoroRecord Second 0 StateRunning)
        (by decide) []).2 (by decide) (by decide)
    exact ⟨r2, rec, h1, h2, h3⟩⟩

/-- C9, as stated, fails: for an interval created with `ActualDuration = 0` and a planned
duration of one second, two tick events leave a persisted `ActualDuration` of two seconds,
which is greater than `PlannedDuration`; nothing caps it. -/
theorem tick_actualDuration_exceeds_planned :
    (tick 1 (NewConfig (singleStore Second StateRunning) 0 0 0) [.ticker, .ticker]).2.repo.ByID 1
      = .ok (pomodoroRecord Second (2 * Second) StateRunning) ∧
    Second < 2 * Second := by
  decide

/-- C9, amended. For an interval created with `ActualDuration = 0` that is not paused, and
every sequence of tick, expiration and cancellation events, the persisted `ActualDuration`
at the end of the run is one second per tick event handled (the ticks in front of the first
expiration or cancellation), as long as that fits `int64`; `PlannedDuration` is as created
and does not cap it: `ActualDuration ≤ PlannedDuration` holds exactly when no more ticks
were handled than `PlannedDuration` has seconds. -/
theorem tick_actualDuration_counts_ticks (r : inMemoryRepo) (hr : Reachable r) (i : Interval)
    (h0 : i.ActualDuration = 0) (hs : i.State ≠ StatePaused)
    (config : IntervalConfig inMemoryRepo) (hc : config.repo = (r.Create i).2)
    (events : List Event) (hev : ∀ e ∈ events, e = .ticker ∨ e = .expire ∨ e = .ctxDone)
    (hk : (leadingTicks events : Int) * Second < 2 ^ 63) :
    ∃ rec : Interval,
      (tick ((r.intervals.length : Int) + 1) config events).2.repo.ByID
          ((r.intervals.length : Int) + 1) = .ok rec ∧
      rec.ActualDuration = (leadingTicks events : Int) * Second ∧
      rec.PlannedDuration = i.PlannedDuration ∧
      (rec.ActualDuration ≤ rec.PlannedDuration ↔
        (leadingTicks events : Int) * Second ≤ i.PlannedDuration) := by
  have hread := ByID_after_Create r i
  have hr2 : Reachable (r.Create i).2 := Reachable.create r i hr
  unfold tick
  rw [hc, hread]
  simp only
  obtain ⟨rec, h1, h2, h3⟩ := loop_actualDuration ((r.intervals.length : Int) + 1) events hev
    (r.Create i).2 [.start { i with ID := (r.intervals.length : Int) + 1 }]
    { i with ID := (r.intervals.length : Int) + 1 } hr2 hread hs
    (by simp only [h0]; decide) (by simp only [h0]; omega)
  simp only [h0, zero_add] at h2
  simp only at h3
  exact ⟨rec, h1, h2, h3, by rw [h2, h3]⟩

theorem tick_actualDuration_counts_ticks_witness :
    ∃ rec : Interval,
      (tick 1 (NewConfig (singleStore (10 * Second) StateRunning) 0 0 0)
          [.ticker, .ticker, .ctxDone, .ticker]).2.repo.ByID 1 = .ok rec ∧
      rec.ActualDuration = 2 * Second ∧ rec.PlannedDuration = 10 * Second := by
  obtain ⟨rec, h1, h2, h3, _⟩ := tick_actualDuration_counts_ticks NewInMemoryRepo
    Reachable.new
    { pomodoroRecord (10 * Second) 0 StateRunning with ID := 0 }
    rfl (by decide) (NewConfig (singleStore (10 * Second) StateRunning) 0 0 0) rfl
    [.ticker, .ticker, .ctxDone, .ticker] (by decide) (by decide)
  exact ⟨rec, h1, h2, h3⟩

/-- C10, as stated, fails on the order: in a run that ends by expiration the callback `end`
is invoked before `Update`, not after it. The trace is start, end, Update, and when `end`
is invoked the stored record is still in the state it was read in, not `Done`. -/
theorem tick_finish_before_update :
    (tick 1 (NewConfig (singleStore Second StateRunning) 0 0 0) [.expire]).2.trace
      = [.start (pomodoroRecord Second 0 StateRunning),
         .finish (pomodoroRecord Second 0 StateDone),
         .update (pomodoroRecord Second 0 StateDone)] ∧
    (singleStore Second StateRunning).ByID 1
      = .ok (pomodoroRecord Second 0 StateRunning) := by
  decide

/-- C10, amended. In every run of the timer, whatever the store, the identifier and the
events (out-of-band writes included), `end` is invoked at most once; if it is invoked, the
record passed is in state `Done`, the run returned in the case of expiration, and the call
is immediately followed by the call of `Update` on that same record, which is the last
action of the run (so `end` comes before the `Update` that persists `Done`). A run that
returned in any other case (pause, cancellation, a failure of the first read) performed no
call of `end`. -/
theorem tick_finish_discipline (id : Int) (config : IntervalConfig inMemoryRepo)
    (events : List Event) :
    (tick id config events).2.trace.countP isFinish ≤ 1 ∧
    (∀ j : Interval, Action.finish j ∈ (tick id config events).2.trace →
      j.State = StateDone ∧
      (∃ res : Outcome Unit, (tick id config events).1 = some ⟨some .expire, res⟩) ∧
      ∃ pre : List Action, (∀ a ∈ pre, isFinish a = false) ∧
        (tick id config events).2.trace = pre ++ [.finish j, .update j]) ∧
    (∀ ret : Return, (tick id config events).1 = some ret → ret.inCase ≠ some .expire →
      ∀ a ∈ (tick id config events).2.trace, isFinish a = false) := by
  rcases tick_trace id config events with hA | ⟨pre, j, res, hpre, hj, hret, htr⟩
  · refine ⟨?_, ?_, fun _ _ _ => hA⟩
    · have : (tick id config events).2.trace.countP isFinish = 0 := by
        rw [List.countP_eq_zero]
        intro a ha
        simp [hA a ha]
      omega
    · intro j hj
      have := hA _ hj
      simp [isFinish] at this
  · have hpre0 : pre.countP isFinish = 0 := by
      rw [List.countP_eq_zero]
      intro a ha
      simp [hpre a ha]
    refine ⟨?_, ?_, ?_⟩
    · rw [htr, List.countP_append, hpre0]
      simp [List.countP_cons, isFinish]
    · intro j2 hj2
      rw [htr] at hj2
      rcases List.mem_append.mp hj2 with h | h
      · have := hpre _ h
        simp [isFinish] at this
      · simp only [List.mem_cons, Action.finish.injEq, List.mem_singleton,
          reduceCtorEq, or_false, List.not_mem_nil] at h
        subst h
        exact ⟨hj, ⟨res, hret⟩, pre, hpre, htr⟩
    · intro ret hr hne
      rw [hret] at hr
      simp only [Option.some.injEq] at hr
      subst hr
      exact absurd rfl hne

theorem tick_finish_discipline_witness :
    (∀ a ∈ (tick 1 (NewConfig (singleStore Second StatePaused) 0 0 0)
        [.ticker, .expire]).2.trace, isFinish a = false) ∧
    (∀ a ∈ (tick 1 (NewConfig (singleStore Second StateRunning) 0 0 0)
        [.ticker, .ctxDone, .expire]).2.trace, isFinish a = false) ∧
    ∃ pre : List Action,
      (tick 1 (NewConfig (singleStore Second StateRunning) 0 0 0) [.ticker, .expire]).2.trace
        = pre ++ [.finish (pomodoroRecord Second Second StateDone),
                  .update (pomodoroRecord Second Second StateDone)] :=
  ⟨(tick_finish_discipline 1 (NewConfig (singleStore Second StatePaused) 0 0 0)
      [.ticker, .expire]).2.2 ⟨some .ticker, .ok ()⟩ (by decide) (by decide),
   (tick_finish_discipline 1 (NewConfig (singleStore Second StateRunning) 0 0 0)
      [.ticker, .ctxDone, .expire]).2.2 ⟨some .ctxDone, .ok ()⟩ (by decide) (by decide),
   by
    obtain ⟨_, _, pre, _, h⟩ :=
      (tick_finish_discipline 1 (NewConfig (singleStore Second StateRunning) 0 0 0)
        [.ticker, .expire]).2.1
        (pomodoroRecord Second Second StateDone)
        (by decide)
    exact ⟨pre, h⟩⟩

/-! ## The timer: cancellation -/

theorem selectCase_reachable (id : Int) (t : Timer) (e : Event) (h : Reachable t.repo) :
    Reachable (selectCase id t e).2.repo := by
  cases e with
  | ticker =>
      unfold selectCase
      cases hread : t.repo.ByID id with
      | panic => exact h
      | error err => exact h
      | ok i =>
          simp only
          by_cases hp : i.State = StatePaused
          · rw [if_pos hp]; exact h
          · rw [if_neg hp]
            have hu := Reachable.update t.repo
              { i with ActualDuration := wrapInt64 (i.ActualDuration + Second) } h
            rcases hU : t.repo.Update
                { i with ActualDuration := wrapInt64 (i.ActualDuration + Second) }
              with ⟨res, r2⟩
            rw [hU] at hu
            cases res <;> exact hu
  | expire =>
      unfold selectCase
      cases hread : t.repo.ByID id with
      | panic => exact h
      | error err => exact h
      | ok i => exact Reachable.update t.repo { i with State := StateDone } h
  | ctxDone =>
      unfold selectCase
      cases hread : t.repo.ByID id with
      | panic => exact h
      | error err => exact h
      | ok i => exact Reachable.update t.repo { i with State := StateCancelled } h
  | outOfBand w => exact Reachable.update t.repo w h

theorem loop_reachable (id : Int) (events : List Event) :
    ∀ t : Timer, Reachable t.repo → Reachable (loop id events t).2.repo := by
  induction events with
  | nil => intro t h; simpa [loop] using h
  | cons e es ih =>
      intro t h
      have hs := selectCase_reachable id t e h
      unfold loop
      rcases hsel : selectCase id t e with ⟨res, t2⟩
      rw [hsel] at hs
      cases res with
      | some out => exact hs
      | none => exact ih t2 hs

theorem tick_reachable (id : Int) (config : IntervalConfig inMemoryRepo)
    (events : List Event) (h : Reachable config.repo) :
    Reachable (tick id config events).2.repo := by
  unfold tick
  cases hread : config.repo.ByID id with
  | panic => exact h
  | error err => exact h
  | ok i => exact loop_reachable id events ⟨config.repo, [.start i]⟩ h

/-- C11. The cancellation event on an identifier. When `ByID` succeeds on a reachable store,
`Update` succeeds too, the run returns nil in that iteration, the store holds under the
identifier the record read with `State = Cancelled` and every other field as read
(`ActualDuration` included), the other identifiers read as before, and the trace grows by
that one `Update` only, so `end` is not invoked. When `ByID` returns an error the run
returns that error and changes nothing; when `Update` returns an error the run returns that
error, again without a call of `end`. -/
theorem ctxDone_event (r : inMemoryRepo) (trace : List Action) (id : Int)
    (rest : List Event) :
    (∀ i : Interval, Reachable r → r.ByID id = .ok i →
      ∃ (r2 : inMemoryRepo) (rec : Interval),
        r.Update { i with State := StateCancelled } = (.ok (), r2) ∧
        loop id (.ctxDone :: rest) ⟨r, trace⟩
          = (some ⟨some .ctxDone, .ok ()⟩, ⟨r2, trace ++ [.update rec]⟩) ∧
        r2.ByID id = .ok rec ∧ rec = { i with State := StateCancelled } ∧
        rec.State = StateCancelled ∧ rec.ActualDuration = i.ActualDuration ∧
        rec.ID = i.ID ∧ rec.StartTime = i.StartTime ∧
        rec.PlannedDuration = i.PlannedDuration ∧ rec.Category = i.Category ∧
        (∀ a ∈ [Action.update rec], isFinish a = false) ∧
        (∀ id2 : Int, id2 ≠ id → r2.ByID id2 = r.ByID id2)) ∧
    (∀ err : PomoError, r.ByID id = .error err →
      loop id (.ctxDone :: rest) ⟨r, trace⟩
        = (some ⟨some .ctxDone, .error err⟩, ⟨r, trace⟩)) ∧
    (∀ (i : Interval) (err : PomoError), r.ByID id = .ok i →
      (r.Update { i with State := StateCancelled }).1 = .error err →
      (loop id (.ctxDone :: rest) ⟨r, trace⟩).1 = some ⟨some .ctxDone, .error err⟩ ∧
      (loop id (.ctxDone :: rest) ⟨r, trace⟩).2.trace
        = trace ++ [.update { i with State := StateCancelled }]) := by
  refine ⟨?_, ?_, ?_⟩
  · intro i hr hread
    have hid : i.ID = id := ByID_ok_ID r hr id i hread
    have hU := Update_of_stored r id i { i with State := StateCancelled } hread hid
    have hstep := selectCase_ctxDone_stored r hr trace id i hread
    refine ⟨⟨r.intervals.set (id - 1).toNat { i with State := StateCancelled }⟩,
      { i with State := StateCancelled }, hU, ?_, ByID_set_same r id i _ hread,
      rfl, rfl, rfl, rfl, rfl, rfl, rfl, ?_, ?_⟩
    · unfold loop
      rw [hstep]
    · intro a ha
      simp only [List.mem_singleton] at ha
      subst ha
      rfl
    · intro id2 hne
      exact ByID_set_other r id id2 _ (ByID_ok_getElem? r id i hread).1 hne
  · intro err hread
    unfold loop
    simp only [selectCase, hread]
  · intro i err hread hupd
    unfold loop
    simp only [selectCase, hread, hupd]
    exact ⟨trivial, trivial⟩

theorem ctxDone_event_witness :
    (∃ r2 : inMemoryRepo,
      loop 1 [.ctxDone, .ticker]
          ⟨(tick 1 (NewConfig (singleStore (10 * Second) StateRunning) 0 0 0)
              [.ticker, .ticker]).2.repo, []⟩
        = (some ⟨some .ctxDone, .ok ()⟩,
           ⟨r2, [.update (pomodoroRecord (10 * Second) (2 * Second) StateCancelled)]⟩) ∧
      r2.ByID 1 = .ok (pomodoroRecord (10 * Second) (2 * Second) StateCancelled)) ∧
    loop 0 [.ctxDone] ⟨NewInMemoryRepo, []⟩
      = (some ⟨some .ctxDone, .error (.wrapped .ErrInvalidID 0)⟩, ⟨NewInMemoryRepo, []⟩) ∧
    (loop 1 [.ctxDone] ⟨⟨[Interval.zero]⟩, []⟩).1
      = some ⟨some .ctxDone, .error (.wrapped .ErrInvalidID 0)⟩ :=
  ⟨by
    obtain ⟨r2, rec, _, h1, h2, h3, _⟩ :=
      (ctxDone_event
        (tick 1 (NewConfig (singleStore (10 * Second) StateRunning) 0 0 0)
          [.ticker, .ticker]).2.repo [] 1 [.ticker]).1
        (pomodoroRecord (10 * Second) (2 * Second) StateRunning)
        (tick_reachable 1 _ _ (Reachable.create _ _ Reachable.new)) (by decide)
    subst h3
    exact ⟨r2, h1, h2⟩,
   (ctxDone_event NewInMemoryRepo [] 0 []).2.1 (.wrapped .ErrInvalidID 0) (by decide),
   ((ctxDone_event ⟨[Interval.zero]⟩ [] 1 []).2.2 Interval.zero (.wrapped .ErrInvalidID 0)
      (by decide) (by decide)).1⟩

end Pomodoro
